import Mathlib

/-!
Verification of the natural-language specification of the directory tree
printer in src/print_tree_unicode.py against a shallow embedding of its code.

The program recursively lists a directory, printing one line per entry with
tree-drawing connectors; names containing a character with codepoint above 127
or below 32 are shown through Python repr together with a bracketed list of
U+XXXX codepoints.  The embedding below translates each Python function into a
Lean function over an inductive model of the filesystem; printing is modelled
as the list of lines written to standard output, paired with a flag recording
whether an uncaught exception escaped (only PermissionError is caught by the
code).
-/

/-! ## Python string comparison

Python `sorted` on strings compares them as sequences of Unicode codepoints,
lexicographically, using `<`.  We model the strict comparison on the
underlying character lists and derive the reflexive order from it. -/

/-- Lexicographic strict comparison of two character lists by codepoint,
modelling Python string `<`. -/
def lexLt : List Char → List Char → Bool
  | [], [] => false
  | [], _ :: _ => true
  | _ :: _, [] => false
  | a :: as, b :: bs => if a < b then true else if b < a then false else lexLt as bs

/-- Reflexive string order used by the model of Python `sorted`:
`a` is at most `b` when `b` is not strictly below `a`. -/
def pyStrLe (a b : String) : Bool := ! lexLt b.data a.data

/-! ## Hexadecimal formatting

Models of the Python format specifications used by the code:
`f"{cp:04X}"` in char_to_codepoint (uppercase, zero-padded to at least four
digits) and the lowercase fixed-width escapes `\xXX`, `\uXXXX`, `\UXXXXXXXX`
produced by repr. -/

/-- Uppercase hexadecimal digit for a value below 16. -/
def hexDigitU (n : Nat) : Char :=
  if n < 10 then Char.ofNat (48 + n) else Char.ofNat (55 + n)

/-- Lowercase hexadecimal digit for a value below 16. -/
def hexDigitL (n : Nat) : Char :=
  if n < 10 then Char.ofNat (48 + n) else Char.ofNat (87 + n)

/-- Accumulate the uppercase hexadecimal digits of n in front of acc.
The first argument is fuel making the recursion structural; any fuel at least
n computes the digits in full. -/
def toHexAux : Nat → Nat → List Char → List Char
  | _, 0, acc => acc
  | 0, _ + 1, acc => acc
  | fuel + 1, n + 1, acc => toHexAux fuel ((n + 1) / 16) (hexDigitU ((n + 1) % 16) :: acc)

/-- Uppercase hexadecimal digits of a natural number, without padding;
zero is rendered as the single digit 0. -/
def toHex (n : Nat) : List Char :=
  if n = 0 then ['0'] else toHexAux n n []

/-- Zero-pad a digit list on the left to length at least 4, modelling the
Python format width 04. -/
def pad4 (ds : List Char) : List Char :=
  List.replicate (4 - ds.length) '0' ++ ds

/-- Model of the Python format expression f-string cp:04X — uppercase
hexadecimal, zero-padded to a minimum of four digits. -/
def pyFormat04X (n : Nat) : String :=
  ⟨pad4 (toHex n)⟩

/-- Fixed-width lowercase hexadecimal digits (most significant first), as in
the repr escapes with x, u and U; w is the number of digits. -/
def hexFixed (w : Nat) (n : Nat) : List Char :=
  (List.range w).reverse.map (fun i => hexDigitL (n / 16 ^ i % 16))

/-! ## Python repr of strings

The code formats a special name with the f-string conversion {name!r}, i.e.
Python repr.  CPython repr chooses a quote character, escapes the backslash
and the quote, renders tab, newline and carriage return as two-character
escapes, and backslash-escapes every other non-printable character; printable
characters are kept verbatim.  A character is printable unless its Unicode
category is Other (Cc, Cf, Cs, Co, Cn) or Separator (Zs, Zl, Zp), with the
sole exception of the ASCII space.  The category table below covers the
assigned Separator characters, the Format characters of the Basic
Multilingual Plane, the surrogate and private use ranges; unassigned (Cn)
codepoints, Format characters outside the listed ranges and any later
additions to Unicode are approximated as printable.  All concrete inputs used
in the theorems of this file lie inside the exactly-modelled ranges. -/

/-- Model of Python str.isprintable for a single character (see the section
comment above for the approximation made on unassigned codepoints). -/
def pyPrintable (c : Char) : Bool :=
  let n := c.toNat
  if n < 32 then false
  else if n < 127 then true
  else if n ≤ 160 then false
  else if n = 173 then false
  else if 1536 ≤ n && n ≤ 1541 then false
  else if n = 1564 || n = 1757 || n = 1807 || n = 2274 then false
  else if n = 5760 || n = 6158 then false
  else if 8192 ≤ n && n ≤ 8207 then false
  else if 8232 ≤ n && n ≤ 8239 then false
  else if n = 8287 then false
  else if 8288 ≤ n && n ≤ 8303 then false
  else if n = 12288 then false
  else if 55296 ≤ n && n ≤ 57343 then false
  else if 57344 ≤ n && n ≤ 63743 then false
  else if n = 65279 then false
  else if 65529 ≤ n && n ≤ 65531 then false
  else if 983040 ≤ n then false
  else true

/-- Escape of one character inside a Python repr with the given quote
character, following CPython: quote and backslash are backslash-escaped, tab,
newline and carriage return use their two-character escapes, other
non-printable characters use a fixed-width hexadecimal escape, and printable
characters stand for themselves. -/
def reprEscChar (quote : Char) (c : Char) : List Char :=
  if c = quote || c = '\\' then ['\\', c]
  else if c = '\t' then ['\\', 't']
  else if c = '\n' then ['\\', 'n']
  else if c = '\r' then ['\\', 'r']
  else if c.toNat < 32 || c.toNat = 127 then '\\' :: 'x' :: hexFixed 2 c.toNat
  else if c.toNat < 127 then [c]
  else if pyPrintable c then [c]
  else if c.toNat ≤ 255 then '\\' :: 'x' :: hexFixed 2 c.toNat
  else if c.toNat ≤ 65535 then '\\' :: 'u' :: hexFixed 4 c.toNat
  else '\\' :: 'U' :: hexFixed 8 c.toNat

/-- Model of Python repr on strings: single quotes, switching to double
quotes when the string contains a single quote but no double quote. -/
def pyRepr (s : String) : String :=
  let quote : Char := if s.data.contains '\'' && ! s.data.contains '"' then '"' else '\''
  ⟨quote :: s.data.flatMap (reprEscChar quote) ++ [quote]⟩

/-! ## The source functions on names (lines 11 to 23 of the Python file) -/

/-- Model of char_to_codepoint: both branches of the source's test cp < 0x100
format the codepoint the same way, as U+ followed by f-string cp:04X. -/
def char_to_codepoint (c : Char) : String :=
  let cp := c.toNat
  if cp < 0x100 then "U+" ++ pyFormat04X cp
  else "U+" ++ pyFormat04X cp

/-- Model of filename_with_codepoints: the f-string
{name!r} [{' '.join(codepoints)}] with one codepoint token per character. -/
def filename_with_codepoints (name : String) : String :=
  let codepoints := name.data.map char_to_codepoint
  pyRepr name ++ " [" ++ String.intercalate " " codepoints ++ "]"

/-- Model of the source's test on line 61: any(ord(c) > 127 or ord(c) < 32
for c in entry). -/
def hasSpecial (name : String) : Bool :=
  name.data.any (fun c => decide (127 < c.toNat) || decide (c.toNat < 32))

/-! ## The filesystem model

An entry is a file or a directory; a directory either lists its children
normally, raises PermissionError on os.listdir (deniedDir), or raises some
other OSError (errDir).  os.path.isdir is true on every directory variant.
Children model the distinct named entries of a real directory, in arbitrary
filesystem order; os.listdir enumerates them and the code sorts the result. -/

inductive FS where
  | file (name : String)
  | dir (name : String) (children : List FS)
  | deniedDir (name : String)
  | errDir (name : String)

/-- Name of an entry, as returned by os.listdir of the parent. -/
def FS.name : FS → String
  | .file n => n
  | .dir n _ => n
  | .deniedDir n => n
  | .errDir n => n

/-- Model of os.path.isdir on the entry. -/
def FS.isDir : FS → Bool
  | .file _ => false
  | .dir _ _ => true
  | .deniedDir _ => true
  | .errDir _ => true

mutual
/-- Height of the tree, used as sufficient fuel for the traversal. -/
def FS.depth : FS → Nat
  | .file _ => 1
  | .deniedDir _ => 1
  | .errDir _ => 1
  | .dir _ cs => 1 + FS.depthList cs
/-- Maximal depth of a list of entries. -/
def FS.depthList : List FS → Nat
  | [] => 0
  | e :: es => max (FS.depth e) (FS.depthList es)
end

mutual
/-- A tree is clean when every directory in it is normally listable. -/
def FS.clean : FS → Bool
  | .file _ => true
  | .deniedDir _ => false
  | .errDir _ => false
  | .dir _ cs => FS.cleanList cs
/-- All entries of the list are clean. -/
def FS.cleanList : List FS → Bool
  | [] => true
  | e :: es => FS.clean e && FS.cleanList es
end

mutual
/-- A tree is errFree when no directory in it raises a non-permission error;
directories that merely deny permission are allowed. -/
def FS.errFree : FS → Bool
  | .file _ => true
  | .deniedDir _ => true
  | .errDir _ => false
  | .dir _ cs => FS.errFreeList cs
/-- All entries of the list are errFree. -/
def FS.errFreeList : List FS → Bool
  | [] => true
  | e :: es => FS.errFree e && FS.errFreeList es
end

/-! ## Sorting, filtering and ordering of a directory listing
(lines 29 to 51 of the Python file) -/

/-- Model of the Python test e.startswith('.'). -/
def startsWithDot (s : String) : Bool :=
  match s.data with
  | [] => false
  | c :: _ => c == '.'

/-- Order on entries by name, as used by sorted(os.listdir(root)). -/
def entryLe (a b : FS) : Prop := pyStrLe a.name b.name = true

instance : DecidableRel entryLe := fun a b =>
  inferInstanceAs (Decidable (pyStrLe a.name b.name = true))

/-- Model of sorted(os.listdir(root)): a stable sort of the children by
name. -/
def sortEntries (cs : List FS) : List FS := List.insertionSort entryLe cs

/-- Lines 29 to 38: the sorted listing, with hidden entries removed when
ignore_hidden is set and the entry named .git removed when ignore_git is
set. -/
def filterEntries (cs : List FS) (ignore_hidden ignore_git : Bool) : List FS :=
  let es := sortEntries cs
  let es := if ignore_hidden then es.filter (fun e => ! startsWithDot e.name) else es
  if ignore_git then es.filter (fun e => e.name != ".git") else es

/-- Lines 40 to 51: partition of the filtered listing into files and
directories by os.path.isdir, printed as files first, then directories. -/
def orderEntries (cs : List FS) (ignore_hidden ignore_git : Bool) : List FS :=
  (filterEntries cs ignore_hidden ignore_git).filter (fun e => ! e.isDir)
    ++ (filterEntries cs ignore_hidden ignore_git).filter (fun e => e.isDir)

/-- A single predicate equivalent to the two filters of lines 35 to 38,
used to count surviving entries. -/
def keepEntry (ignore_hidden ignore_git : Bool) (e : FS) : Bool :=
  (! ignore_hidden || ! startsWithDot e.name) && (! ignore_git || e.name != ".git")

mutual
/-- Number of filesystem entries reachable under the root that survive the
filters, the quantity the specification compares with the number of printed
entry lines.  The root itself is not counted. -/
def countEntries (ignore_hidden ignore_git : Bool) : FS → Nat
  | .dir _ cs => countList ignore_hidden ignore_git cs
  | _ => 0
/-- Sum, over surviving entries of a listing, of one plus the count below
the entry. -/
def countList (ignore_hidden ignore_git : Bool) : List FS → Nat
  | [] => 0
  | e :: es =>
    (if keepEntry ignore_hidden ignore_git e then
      1 + countEntries ignore_hidden ignore_git e
    else 0) + countList ignore_hidden ignore_git es
end

/-! ## Line formatting (lines 53 to 67 of the Python file) -/

/-- Line 55: the connector glyph, corner for the last entry of a listing and
tee otherwise. -/
def connector (isLast : Bool) : String :=
  if isLast then "└── " else "├── "

/-- Line 70: the continuation glyph appended to the prefix when recursing,
four spaces under a last entry and a vertical bar with three spaces
otherwise. -/
def extension (isLast : Bool) : String :=
  if isLast then "    " else "│   "

/-- The trailing separator of lines 65 and 67: a slash on directories. -/
def dirSuffix (e : FS) : String :=
  if e.isDir then "/" else ""

/-- Lines 61 to 67: the displayed form of the entry name, annotated through
filename_with_codepoints exactly when the name has a special character, with
the directory suffix appended. -/
def nameDisplay (e : FS) : String :=
  (if hasSpecial e.name then filename_with_codepoints e.name else e.name) ++ dirSuffix e

/-- The full printed line of one entry (the print calls on lines 65 and
67). -/
def entryLine (pref : String) (isLast : Bool) (e : FS) : String :=
  pref ++ connector isLast ++ nameDisplay e

/-! ## The traversal (print_tree, lines 26 to 71 of the Python file)

Output is modelled as the list of printed lines together with a Boolean that
is true when an uncaught exception escapes the call.  Python prints eagerly,
so the lines produced before a propagating exception are kept.  combine
sequences the per-entry blocks of the loop on line 53: a block whose flag is
set aborts the loop, blocks before it contribute their lines. -/

/-- Sequence the outputs of the loop iterations, stopping at the first
iteration from which an exception propagates. -/
def combine : List (List String × Bool) → List String × Bool
  | [] => ([], false)
  | b :: bs =>
    if b.2 then (b.1, true)
    else (b.1 ++ (combine bs).1, (combine bs).2)

/-- The traversal with explicit structural fuel.  With fuel at least the
depth of the tree this computes print_tree exactly; fuel zero is never
reached from print_tree below.  A file or errDir argument models os.listdir
raising an uncaught error (NotADirectoryError or a non-permission OSError):
no line is printed and the flag is set.  A deniedDir prints the
PermissionError placeholder of line 31 and returns normally. -/
def printTreeF : Nat → FS → String → Bool → Bool → List String × Bool
  | 0, _, _, _, _ => ([], true)
  | _ + 1, .file _, _, _, _ => ([], true)
  | _ + 1, .errDir _, _, _, _ => ([], true)
  | _ + 1, .deniedDir _, pref, _, _ => ([pref ++ "[Permission Denied]"], false)
  | fuel + 1, .dir _ cs, pref, ignore_hidden, ignore_git =>
    let all := orderEntries cs ignore_hidden ignore_git
    combine (all.enum.map (fun ie =>
      let isLast := ie.1 == all.length - 1
      let line := entryLine pref isLast ie.2
      if ie.2.isDir then
        let r := printTreeF fuel ie.2 (pref ++ extension isLast) ignore_hidden ignore_git
        (line :: r.1, r.2)
      else ([line], false)))

/-- Model of print_tree(root, prefix, ignore_hidden, ignore_git): the list of
printed lines and the propagating-exception flag. -/
def print_tree (root : FS) (pref : String) (ignore_hidden ignore_git : Bool) :
    List String × Bool :=
  printTreeF (FS.depth root) root pref ignore_hidden ignore_git

/-! ## Specification-side definitions

These follow the words of the specification and the claims, for comparison
with the code-side definitions above. -/

/-- Uppercase hexadecimal digit as a character, following the glossary of the
specification. -/
def isUpperHexDigitB (c : Char) : Bool :=
  ('0' ≤ c && c ≤ '9') || ('A' ≤ c && c ≤ 'F')

/-- Numeric value of one hexadecimal digit character. -/
def hexDigitVal (c : Char) : Nat :=
  if c ≤ '9' then c.toNat - 48 else c.toNat - 55

/-- Value denoted by a big-endian list of hexadecimal digit characters. -/
def hexValue (ds : List Char) : Nat :=
  ds.foldl (fun a c => 16 * a + hexDigitVal c) 0

/-- The specification's description of one codepoint token: U+ followed by at
least four uppercase hexadecimal digits denoting the codepoint, zero-padded.
-/
def tokenSpec (n : Nat) (s : String) : Prop :=
  ∃ ds : List Char,
    s.data = 'U' :: '+' :: ds ∧ 4 ≤ ds.length ∧
      (∀ c ∈ ds, isUpperHexDigitB c = true) ∧ hexValue ds = n

/-- The annotated form as claim C2 words it: the name itself, verbatim,
enclosed in quotes, followed by the bracketed space-separated codepoint
list. -/
def claimedAnnotated (name : String) : String :=
  "'" ++ name ++ "' [" ++ String.intercalate " " (name.data.map char_to_codepoint) ++ "]"

/-! ## Properties of the string order -/

theorem lexLt_cons_iff {a b : Char} {as bs : List Char} :
    lexLt (a :: as) (b :: bs) = true ↔ a < b ∨ (a = b ∧ lexLt as bs = true) := by
  simp only [lexLt]
  rcases lt_trichotomy a b with hab | hab | hab
  · simp [hab, asymm hab, hab.ne]
  · subst hab; simp [lt_irrefl]
  · simp [asymm hab, hab, hab.ne', not_lt_of_lt hab]

theorem lexLt_irrefl : ∀ x, lexLt x x = false := by
  intro x
  induction x with
  | nil => rfl
  | cons a as ih => simp [lexLt, ih]

theorem lexLt_trans : ∀ x y z, lexLt x y = true → lexLt y z = true → lexLt x z = true := by
  intro x
  induction x with
  | nil => intro y z h1 h2; cases y <;> cases z <;> simp_all [lexLt]
  | cons a as ih =>
    intro y z h1 h2
    cases y with
    | nil => simp_all [lexLt]
    | cons b bs =>
      cases z with
      | nil => simp_all [lexLt]
      | cons c cs =>
        rw [lexLt_cons_iff] at h1 h2 ⊢
        rcases h1 with hab | ⟨hab, h1⟩
        · rcases h2 with hbc | ⟨hbc, h2⟩
          · exact Or.inl (lt_trans hab hbc)
          · exact Or.inl (hbc ▸ hab)
        · rcases h2 with hbc | ⟨hbc, h2⟩
          · exact Or.inl (hab ▸ hbc)
          · exact Or.inr ⟨hab.trans hbc, ih bs cs h1 h2⟩

theorem lexLt_connex : ∀ x y, lexLt x y = false → lexLt y x = false → x = y := by
  intro x
  induction x with
  | nil => intro y h1 h2; cases y <;> simp_all [lexLt]
  | cons a as ih =>
    intro y h1 h2
    cases y with
    | nil => simp_all [lexLt]
    | cons b bs =>
      rcases lt_trichotomy a b with hab | hab | hab
      · rw [Bool.eq_false_iff] at h1
        exact absurd (lexLt_cons_iff.mpr (Or.inl hab)) h1
      · subst hab
        simp only [lexLt, lt_irrefl, if_neg (lt_irrefl a).elim, if_false] at h1 h2
        rw [ih bs h1 h2]
      · rw [Bool.eq_false_iff] at h2
        exact absurd (lexLt_cons_iff.mpr (Or.inl hab)) h2

theorem lexLt_asymm {x y : List Char} (h : lexLt x y = true) : lexLt y x = false := by
  rw [Bool.eq_false_iff]
  intro h2
  have := lexLt_trans x y x h h2
  rw [lexLt_irrefl] at this
  exact Bool.false_ne_true this

instance : IsTrans FS entryLe where
  trans a b c hab hbc := by
    unfold entryLe pyStrLe at hab hbc ⊢
    rw [Bool.not_eq_eq_eq_not, Bool.not_true] at hab hbc ⊢
    by_contra hca
    rw [Bool.not_eq_false] at hca
    rcases h : lexLt a.name.data b.name.data with _ | _
    · have heq := lexLt_connex _ _ h hab
      rw [heq, hbc] at hca
      exact Bool.false_ne_true hca
    · have := lexLt_trans _ _ _ hca h
      rw [hbc] at this
      exact Bool.false_ne_true this

instance : IsTotal FS entryLe where
  total a b := by
    unfold entryLe pyStrLe
    rcases h : lexLt b.name.data a.name.data with _ | _
    · exact Or.inl rfl
    · exact Or.inr (by rw [lexLt_asymm h]; rfl)

/-! ## Membership and ordering facts about the listing -/

theorem sortEntries_perm (cs : List FS) : List.Perm (sortEntries cs) cs :=
  List.perm_insertionSort entryLe cs

theorem sortEntries_sorted (cs : List FS) : List.Sorted entryLe (sortEntries cs) :=
  List.sorted_insertionSort entryLe cs

theorem mem_sortEntries {e : FS} {cs : List FS} (h : e ∈ sortEntries cs) : e ∈ cs :=
  (sortEntries_perm cs).subset h

theorem filterEntries_eq_filter_keep (cs : List FS) (ih ig : Bool) :
    filterEntries cs ih ig = (sortEntries cs).filter (keepEntry ih ig) := by
  unfold filterEntries keepEntry
  cases ih <;> cases ig <;>
    simp [List.filter_filter, List.filter_congr, Bool.and_comm]

theorem mem_filterEntries {e : FS} {cs : List FS} {ih ig : Bool}
    (h : e ∈ filterEntries cs ih ig) : e ∈ cs := by
  rw [filterEntries_eq_filter_keep] at h
  exact mem_sortEntries (List.mem_of_mem_filter h)

theorem filterEntries_sorted (cs : List FS) (ih ig : Bool) :
    List.Sorted entryLe (filterEntries cs ih ig) := by
  rw [filterEntries_eq_filter_keep]
  exact (sortEntries_sorted cs).filter _

theorem orderEntries_perm_filterEntries (cs : List FS) (ih ig : Bool) :
    List.Perm (orderEntries cs ih ig) (filterEntries cs ih ig) := by
  unfold orderEntries
  have h := List.filter_append_perm (fun e => ! e.isDir) (filterEntries cs ih ig)
  have h2 : (filterEntries cs ih ig).filter (fun e => !!e.isDir)
      = (filterEntries cs ih ig).filter (fun e => e.isDir) := by
    apply List.filter_congr
    intro e _
    simp
  rw [h2] at h
  exact h

theorem mem_orderEntries {e : FS} {cs : List FS} {ih ig : Bool}
    (h : e ∈ orderEntries cs ih ig) : e ∈ cs :=
  mem_filterEntries ((orderEntries_perm_filterEntries cs ih ig).subset h)

/-! ## Depth and fuel adequacy -/

theorem FS.one_le_depth : ∀ fs : FS, 1 ≤ fs.depth
  | .file _ => le_refl 1
  | .deniedDir _ => le_refl 1
  | .errDir _ => le_refl 1
  | .dir _ _ => Nat.le_add_right 1 _

theorem FS.depth_le_depthList {e : FS} : ∀ {cs : List FS}, e ∈ cs → e.depth ≤ FS.depthList cs
  | c :: cs, h => by
    rcases List.mem_cons.mp h with h | h
    · subst h
      exact le_max_left _ _
    · exact le_trans (FS.depth_le_depthList h) (le_max_right _ _)

theorem printTreeF_fuel_congr :
    ∀ f1 : Nat, ∀ fs : FS, ∀ f2 : Nat, ∀ pref : String, ∀ ih ig : Bool,
      fs.depth ≤ f1 → fs.depth ≤ f2 →
      printTreeF f1 fs pref ih ig = printTreeF f2 fs pref ih ig := by
  intro f1
  induction f1 with
  | zero =>
    intro fs f2 pref ih ig h1 _
    exact absurd (le_trans (FS.one_le_depth fs) h1) (by omega)
  | succ f1 ihf =>
    intro fs f2 pref ih ig h1 h2
    cases f2 with
    | zero => exact absurd (le_trans (FS.one_le_depth fs) h2) (by omega)
    | succ f2 =>
      cases fs with
      | file n => rfl
      | deniedDir n => rfl
      | errDir n => rfl
      | dir n cs =>
        simp only [printTreeF]
        congr 1
        apply List.map_congr_left
        intro ie hie
        have hmem : ie.2 ∈ cs := mem_orderEntries (List.snd_mem_of_mem_enum hie)
        have hd : ie.2.depth ≤ FS.depthList cs := FS.depth_le_depthList hmem
        have hdl1 : FS.depthList cs ≤ f1 := by
          simp only [FS.depth] at h1; omega
        have hdl2 : FS.depthList cs ≤ f2 := by
          simp only [FS.depth] at h2; omega
        rw [ihf ie.2 f2 _ _ _ (le_trans hd hdl1) (le_trans hd hdl2)]

/-! ## Unfolding of the traversal at a directory -/

theorem print_tree_dir_eq (nm : String) (cs : List FS) (pref : String) (ih ig : Bool) :
    print_tree (.dir nm cs) pref ih ig =
      combine ((orderEntries cs ih ig).enum.map (fun ie =>
        if ie.2.isDir then
          (entryLine pref (ie.1 == (orderEntries cs ih ig).length - 1) ie.2 ::
             (print_tree ie.2
               (pref ++ extension (ie.1 == (orderEntries cs ih ig).length - 1)) ih ig).1,
           (print_tree ie.2
             (pref ++ extension (ie.1 == (orderEntries cs ih ig).length - 1)) ih ig).2)
        else
          ([entryLine pref (ie.1 == (orderEntries cs ih ig).length - 1) ie.2], false))) := by
  unfold print_tree
  have hd : FS.depth (.dir nm cs) = FS.depthList cs + 1 := by
    simp only [FS.depth]; omega
  rw [hd]
  simp only [printTreeF]
  congr 1
  apply List.map_congr_left
  intro ie hie
  have hmem : ie.2 ∈ cs := mem_orderEntries (List.snd_mem_of_mem_enum hie)
  have hdth : ie.2.depth ≤ FS.depthList cs := FS.depth_le_depthList hmem
  by_cases h : ie.2.isDir = true
  · simp only [h, if_true]
    rw [printTreeF_fuel_congr (FS.depthList cs) ie.2 ie.2.depth _ _ _ hdth (le_refl _)]
  · simp [h]

/-! ## Sequencing lemmas for combine -/

theorem combine_eq_flatten :
    ∀ l : List (List String × Bool), (∀ b ∈ l, b.2 = false) →
      combine l = ((l.map Prod.fst).flatten, false) := by
  intro l
  induction l with
  | nil => intro _; rfl
  | cons b bs ihl =>
    intro h
    have hb : b.2 = false := h b (List.mem_cons_self b bs)
    have hbs : ∀ x ∈ bs, x.2 = false := fun x hx => h x (List.mem_cons_of_mem b hx)
    simp [combine, hb, ihl hbs]

theorem combine_snd_false {l : List (List String × Bool)}
    (h : ∀ b ∈ l, b.2 = false) : (combine l).2 = false := by
  rw [combine_eq_flatten l h]

/-! ## Clean and error-free trees -/

theorem FS.cleanList_mem : ∀ {cs : List FS}, FS.cleanList cs = true →
    ∀ {e : FS}, e ∈ cs → FS.clean e = true := by
  intro cs
  induction cs with
  | nil => intro _ e he; cases he
  | cons c cs ihl =>
    intro h e he
    rw [FS.cleanList, Bool.and_eq_true] at h
    rcases List.mem_cons.mp he with he | he
    · exact he ▸ h.1
    · exact ihl h.2 he

theorem FS.errFreeList_mem : ∀ {cs : List FS}, FS.errFreeList cs = true →
    ∀ {e : FS}, e ∈ cs → FS.errFree e = true := by
  intro cs
  induction cs with
  | nil => intro _ e he; cases he
  | cons c cs ihl =>
    intro h e he
    rw [FS.errFreeList, Bool.and_eq_true] at h
    rcases List.mem_cons.mp he with he | he
    · exact he ▸ h.1
    · exact ihl h.2 he

theorem printTreeF_snd_false :
    ∀ fuel : Nat, ∀ fs : FS, ∀ pref : String, ∀ ih ig : Bool,
      fs.depth ≤ fuel → fs.errFree = true → fs.isDir = true →
      (printTreeF fuel fs pref ih ig).2 = false := by
  intro fuel
  induction fuel with
  | zero =>
    intro fs pref ih ig h1 _ _
    exact absurd (le_trans (FS.one_le_depth fs) h1) (by omega)
  | succ fuel ihf =>
    intro fs pref ih ig h1 hfree hdir
    cases fs with
    | file n => cases hdir
    | errDir n => cases hfree
    | deniedDir n => rfl
    | dir n cs =>
      simp only [printTreeF]
      apply combine_snd_false
      intro b hb
      rcases List.mem_map.mp hb with ⟨ie, hie, hfb⟩
      have hmem : ie.2 ∈ cs := mem_orderEntries (List.snd_mem_of_mem_enum hie)
      have hdth : ie.2.depth ≤ fuel := by
        have := FS.depth_le_depthList hmem
        simp only [FS.depth] at h1
        omega
      have hfree2 : ie.2.errFree = true :=
        FS.errFreeList_mem (by simpa [FS.errFree] using hfree) hmem
      by_cases h : ie.2.isDir = true
      · rw [← hfb]
        simp only [h, if_true]
        exact ihf ie.2 _ ih ig hdth hfree2 h
      · rw [← hfb]
        simp [h]

/-! ## Counting printed lines -/

theorem countList_eq_sum (ih ig : Bool) :
    ∀ cs : List FS, countList ih ig cs
      = ((cs.filter (keepEntry ih ig)).map (fun e => 1 + countEntries ih ig e)).sum := by
  intro cs
  induction cs with
  | nil => rfl
  | cons c cs ihl =>
    by_cases h : keepEntry ih ig c = true
    · simp [countList, List.filter_cons, h, ihl]
    · simp [countList, List.filter_cons, h, ihl]

theorem printTreeF_count :
    ∀ fuel : Nat, ∀ fs : FS, ∀ pref : String, ∀ ih ig : Bool,
      fs.depth ≤ fuel → fs.clean = true → fs.isDir = true →
      (printTreeF fuel fs pref ih ig).2 = false ∧
        (printTreeF fuel fs pref ih ig).1.length = countEntries ih ig fs := by
  intro fuel
  induction fuel with
  | zero =>
    intro fs pref ih ig h1 _ _
    exact absurd (le_trans (FS.one_le_depth fs) h1) (by omega)
  | succ fuel ihf =>
    intro fs pref ih ig h1 hclean hdir
    cases fs with
    | file n => cases hdir
    | errDir n => cases hclean
    | deniedDir n => cases hclean
    | dir n cs =>
      have hcl : ∀ {e : FS}, e ∈ cs → FS.clean e = true :=
        fun he => FS.cleanList_mem (by simpa [FS.clean] using hclean) he
      have hfuel : ∀ {e : FS}, e ∈ cs → e.depth ≤ fuel := by
        intro e he
        have := FS.depth_le_depthList he
        simp only [FS.depth] at h1
        omega
      have hblocks : ∀ b ∈ (orderEntries cs ih ig).enum.map (fun ie =>
          if ie.2.isDir then
            (entryLine pref (ie.1 == (orderEntries cs ih ig).length - 1) ie.2 ::
               (printTreeF fuel ie.2
                 (pref ++ extension (ie.1 == (orderEntries cs ih ig).length - 1)) ih ig).1,
             (printTreeF fuel ie.2
               (pref ++ extension (ie.1 == (orderEntries cs ih ig).length - 1)) ih ig).2)
          else
            ([entryLine pref (ie.1 == (orderEntries cs ih ig).length - 1) ie.2], false)),
          b.2 = false := by
        intro b hb
        rcases List.mem_map.mp hb with ⟨ie, hie, hfb⟩
        have hmem : ie.2 ∈ cs := mem_orderEntries (List.snd_mem_of_mem_enum hie)
        by_cases h : ie.2.isDir = true
        · rw [← hfb]
          simp only [h, if_true]
          exact (ihf ie.2 _ ih ig (hfuel hmem) (hcl hmem) h).1
        · rw [← hfb]
          simp [h]
      simp only [printTreeF]
      rw [combine_eq_flatten _ hblocks]
      refine ⟨rfl, ?_⟩
      rw [List.length_flatten, List.map_map, List.map_map]
      have hpt : ∀ ie ∈ (orderEntries cs ih ig).enum,
          ((List.length ∘ Prod.fst) ∘ (fun ie : Nat × FS =>
            if ie.2.isDir then
              (entryLine pref (ie.1 == (orderEntries cs ih ig).length - 1) ie.2 ::
                 (printTreeF fuel ie.2
                   (pref ++ extension (ie.1 == (orderEntries cs ih ig).length - 1)) ih ig).1,
               (printTreeF fuel ie.2
                 (pref ++ extension (ie.1 == (orderEntries cs ih ig).length - 1)) ih ig).2)
            else
              ([entryLine pref (ie.1 == (orderEntries cs ih ig).length - 1) ie.2], false))) ie
          = ((fun e => 1 + countEntries ih ig e) ∘ Prod.snd) ie := by
        intro ie hie
        have hmem : ie.2 ∈ cs := mem_orderEntries (List.snd_mem_of_mem_enum hie)
        by_cases h : ie.2.isDir = true
        · simp only [Function.comp_apply, h, if_true, List.length_cons]
          rw [(ihf ie.2 _ ih ig (hfuel hmem) (hcl hmem) h).2]
          omega
        · simp only [Function.comp_apply, h, if_false]
          have h0 : countEntries ih ig ie.2 = 0 := by
            cases hval : ie.2 with
            | file m => rfl
            | dir m ms => rw [hval] at h; simp [FS.isDir] at h
            | deniedDir m => rw [hval] at hmem; exact absurd (hcl hmem) (by simp [FS.clean])
            | errDir m => rw [hval] at hmem; exact absurd (hcl hmem) (by simp [FS.clean])
          simp [h0]
      rw [List.map_congr_left hpt, ← List.map_map, List.enum_map_snd]
      rw [((orderEntries_perm_filterEntries cs ih ig).map _).sum_eq]
      rw [filterEntries_eq_filter_keep]
      rw [(((sortEntries_perm cs).filter _).map _).sum_eq]
      rw [show countEntries ih ig (FS.dir n cs) = countList ih ig cs from rfl]
      rw [countList_eq_sum]

/-! ## Correctness of the hexadecimal token -/

theorem hexDigitU_facts :
    ∀ m : Nat, m < 16 → hexDigitVal (hexDigitU m) = m ∧ isUpperHexDigitB (hexDigitU m) = true := by
  decide

theorem foldl_hex_shift :
    ∀ ds : List Char, ∀ a : Nat,
      ds.foldl (fun a c => 16 * a + hexDigitVal c) a
        = a * 16 ^ ds.length + ds.foldl (fun a c => 16 * a + hexDigitVal c) 0 := by
  intro ds
  induction ds with
  | nil => intro a; simp
  | cons c ds ihl =>
    intro a
    rw [List.foldl_cons, List.foldl_cons, ihl (16 * a + hexDigitVal c),
      ihl (16 * 0 + hexDigitVal c), List.length_cons]
    ring

theorem hexValue_cons (c : Char) (ds : List Char) :
    hexValue (c :: ds) = hexDigitVal c * 16 ^ ds.length + hexValue ds := by
  unfold hexValue
  rw [List.foldl_cons, foldl_hex_shift]
  norm_num

theorem hexValue_toHexAux :
    ∀ fuel n : Nat, ∀ acc : List Char, n ≤ fuel →
      hexValue (toHexAux fuel n acc) = n * 16 ^ acc.length + hexValue acc := by
  intro fuel
  induction fuel with
  | zero =>
    intro n acc h
    interval_cases n
    simp [toHexAux]
  | succ fuel ihf =>
    intro n acc h
    cases n with
    | zero => simp [toHexAux]
    | succ n =>
      rw [toHexAux]
      have hle : (n + 1) / 16 ≤ fuel := by
        have := Nat.div_lt_self (Nat.succ_pos n) (by omega : 1 < 16)
        omega
      rw [ihf _ _ hle, hexValue_cons, List.length_cons,
        (hexDigitU_facts ((n + 1) % 16) (Nat.mod_lt _ (by omega))).1]
      have hdm := Nat.div_add_mod (n + 1) 16
      calc (n + 1) / 16 * 16 ^ (acc.length + 1) + ((n + 1) % 16 * 16 ^ acc.length + hexValue acc)
          = ((n + 1) / 16 * 16 + (n + 1) % 16) * 16 ^ acc.length + hexValue acc := by ring
        _ = (n + 1) * 16 ^ acc.length + hexValue acc := by rw [Nat.mul_comm ((n+1)/16) 16, hdm]

theorem toHexAux_digits :
    ∀ fuel n : Nat, ∀ acc : List Char, (∀ c ∈ acc, isUpperHexDigitB c = true) →
      ∀ c ∈ toHexAux fuel n acc, isUpperHexDigitB c = true := by
  intro fuel
  induction fuel with
  | zero =>
    intro n acc hacc c hc
    cases n with
    | zero => exact hacc c hc
    | succ n => exact hacc c hc
  | succ fuel ihf =>
    intro n acc hacc c hc
    cases n with
    | zero => exact hacc c hc
    | succ n =>
      rw [toHexAux] at hc
      refine ihf _ _ ?_ c hc
      intro d hd
      rcases List.mem_cons.mp hd with hd | hd
      · exact hd ▸ (hexDigitU_facts ((n + 1) % 16) (Nat.mod_lt _ (by omega))).2
      · exact hacc d hd

theorem hexValue_toHex (n : Nat) : hexValue (toHex n) = n := by
  unfold toHex
  by_cases h : n = 0
  · subst h; decide
  · rw [if_neg h, hexValue_toHexAux n n [] (le_refl n)]
    simp [hexValue]

theorem toHex_digits (n : Nat) : ∀ c ∈ toHex n, isUpperHexDigitB c = true := by
  unfold toHex
  by_cases h : n = 0
  · subst h; decide
  · rw [if_neg h]
    exact toHexAux_digits n n [] (by intro c hc; cases hc)

theorem hexValue_replicate_zero :
    ∀ k : Nat, ∀ ds : List Char, hexValue (List.replicate k '0' ++ ds) = hexValue ds := by
  intro k
  induction k with
  | zero => intro ds; rfl
  | succ k ihk =>
    intro ds
    rw [List.replicate_succ, List.cons_append, hexValue_cons, ihk]
    have h0 : hexDigitVal '0' = 0 := by decide
    rw [h0]
    simp

theorem pad4_hexValue (ds : List Char) : hexValue (pad4 ds) = hexValue ds :=
  hexValue_replicate_zero _ ds

theorem pad4_length (ds : List Char) : 4 ≤ (pad4 ds).length := by
  unfold pad4
  rw [List.length_append, List.length_replicate]
  omega

theorem pad4_digits (ds : List Char) (h : ∀ c ∈ ds, isUpperHexDigitB c = true) :
    ∀ c ∈ pad4 ds, isUpperHexDigitB c = true := by
  intro c hc
  rcases List.mem_append.mp hc with hc | hc
  · rw [List.eq_of_mem_replicate hc]; decide
  · exact h c hc

theorem char_to_codepoint_eq (c : Char) :
    char_to_codepoint c = "U+" ++ pyFormat04X c.toNat := by
  simp [char_to_codepoint]

theorem tokenSpec_char_to_codepoint (c : Char) :
    tokenSpec c.toNat (char_to_codepoint c) := by
  refine ⟨pad4 (toHex c.toNat), ?_, pad4_length _, pad4_digits _ (toHex_digits _), ?_⟩
  · rw [char_to_codepoint_eq]
    rw [String.data_append]
    rfl
  · rw [pad4_hexValue, hexValue_toHex]

/-! ## The claims -/

/-- C1: an entry line's name part is annotated with a codepoint list if and
only if the name contains a character with codepoint above 127 or below 32,
and the bracketed list has exactly one U+XXXX token per character of the
name, in character order, each token being uppercase hexadecimal zero-padded
to at least four digits and denoting that character's codepoint. -/
theorem c1_annotation_iff_special (e : FS) :
    (hasSpecial e.name = true ↔ ∃ c ∈ e.name.data, 127 < c.toNat ∨ c.toNat < 32)
    ∧ (∀ pr : String, ∀ isLast : Bool,
        entryLine pr isLast e = pr ++ connector isLast ++ nameDisplay e)
    ∧ (hasSpecial e.name = false → nameDisplay e = e.name ++ dirSuffix e)
    ∧ (hasSpecial e.name = true →
        nameDisplay e = pyRepr e.name ++ " ["
          ++ String.intercalate " " (e.name.data.map char_to_codepoint) ++ "]" ++ dirSuffix e)
    ∧ (e.name.data.map char_to_codepoint).length = e.name.data.length
    ∧ (∀ c ∈ e.name.data, tokenSpec c.toNat (char_to_codepoint c)) := by
  refine ⟨?_, fun _ _ => rfl, ?_, ?_, List.length_map _ _,
    fun c _ => tokenSpec_char_to_codepoint c⟩
  · unfold hasSpecial
    rw [List.any_eq_true]
    constructor
    · rintro ⟨c, hc, hp⟩
      exact ⟨c, hc, by simpa using hp⟩
    · rintro ⟨c, hc, hp⟩
      exact ⟨c, hc, by simpa using hp⟩
  · intro h
    simp [nameDisplay, h]
  · intro h
    simp [nameDisplay, h, filename_with_codepoints]

/-- Witness for C1 at the concrete special name é. -/
theorem c1_annotation_iff_special_witness :
    hasSpecial (FS.file "é").name = true
    ∧ nameDisplay (FS.file "é") = pyRepr (FS.file "é").name ++ " ["
        ++ String.intercalate " " ((FS.file "é").name.data.map char_to_codepoint) ++ "]"
        ++ dirSuffix (FS.file "é") :=
  ⟨by decide, (c1_annotation_iff_special (FS.file "é")).2.2.2.1 (by decide)⟩

/-- C2 counterexample: for the name consisting of the single newline
character (codepoint 10, below 32, hence special), the annotated form is not
the quoted name with the original character verbatim between the quotes: the
output contains no newline character at all, because Python repr renders it
as a backslash escape. -/
theorem c2_counterexample :
    hasSpecial "\n" = true
    ∧ filename_with_codepoints "\n" ≠ claimedAnnotated "\n"
    ∧ '\n' ∉ (filename_with_codepoints "\n").data
    ∧ filename_with_codepoints "\n" = "'\\n' [U+000A]" :=
  ⟨by decide, by decide, by decide, by decide⟩

/-- C2 amended: for every name containing a character with ordinal above 127
or below 32, the annotated form is the Python repr of the name (quote
character chosen by repr, non-printable characters rendered as backslash
escape sequences rather than verbatim) followed by the bracketed
space-separated codepoint list, one token per character in order. -/
theorem c2_amended_repr_form (name : String) (_h : hasSpecial name = true) :
    filename_with_codepoints name
      = pyRepr name ++ " [" ++ String.intercalate " " (name.data.map char_to_codepoint) ++ "]"
    ∧ (name.data.map char_to_codepoint).length = name.data.length
    ∧ ∀ c ∈ name.data, tokenSpec c.toNat (char_to_codepoint c) :=
  ⟨rfl, List.length_map _ _, fun c _ => tokenSpec_char_to_codepoint c⟩

/-- Witness for the amended C2 at the newline name. -/
theorem c2_amended_repr_form_witness :
    hasSpecial "\n" = true
    ∧ filename_with_codepoints "\n"
        = pyRepr "\n" ++ " [" ++ String.intercalate " " ("\n".data.map char_to_codepoint) ++ "]" :=
  ⟨by decide, (c2_amended_repr_form "\n" (by decide)).1⟩

/-- C3: the print order of a listing is all files first and then all
directories, each group alphabetically sorted by name. -/
theorem c3_files_before_dirs_sorted (cs : List FS) (ih ig : Bool) :
    orderEntries cs ih ig
        = (filterEntries cs ih ig).filter (fun e => ! e.isDir)
          ++ (filterEntries cs ih ig).filter (fun e => e.isDir)
    ∧ (∀ e ∈ (filterEntries cs ih ig).filter (fun e => ! e.isDir), e.isDir = false)
    ∧ (∀ e ∈ (filterEntries cs ih ig).filter (fun e => e.isDir), e.isDir = true)
    ∧ List.Sorted entryLe ((filterEntries cs ih ig).filter (fun e => ! e.isDir))
    ∧ List.Sorted entryLe ((filterEntries cs ih ig).filter (fun e => e.isDir)) := by
  refine ⟨rfl, ?_, ?_, (filterEntries_sorted cs ih ig).filter _,
    (filterEntries_sorted cs ih ig).filter _⟩
  · intro e he
    have h2 := (List.mem_filter.mp he).2
    simpa using h2
  · intro e he
    exact (List.mem_filter.mp he).2

/-- Witness for C3 on a concrete listing. -/
theorem c3_files_before_dirs_sorted_witness :
    orderEntries [FS.file "b.txt", FS.dir "sub" [], FS.file "a.txt"] true true
      = (filterEntries [FS.file "b.txt", FS.dir "sub" [], FS.file "a.txt"] true true).filter
          (fun e => ! e.isDir)
        ++ (filterEntries [FS.file "b.txt", FS.dir "sub" [], FS.file "a.txt"] true true).filter
          (fun e => e.isDir)
    ∧ List.Sorted entryLe
        ((filterEntries [FS.file "b.txt", FS.dir "sub" [], FS.file "a.txt"] true true).filter
          (fun e => ! e.isDir)) :=
  ⟨(c3_files_before_dirs_sorted [FS.file "b.txt", FS.dir "sub" [], FS.file "a.txt"] true true).1,
   (c3_files_before_dirs_sorted [FS.file "b.txt", FS.dir "sub" [], FS.file "a.txt"] true true).2.2.2.1⟩

/-- C4: a directory whose listing raises PermissionError prints exactly the
single line made of the current prefix followed by the placeholder, and
returns without visiting children and without raising; a loop iteration that
raises no exception lets the loop continue, one that raises aborts the loop
with the exception propagating; a directory whose listing raises any other
error prints nothing there and propagates. -/
theorem c4_permission_denied (nm pr : String) (ih ig : Bool)
    (bs : List (List String × Bool)) (ls : List String) :
    print_tree (.deniedDir nm) pr ih ig = ([pr ++ "[Permission Denied]"], false)
    ∧ print_tree (.errDir nm) pr ih ig = ([], true)
    ∧ combine ((ls, false) :: bs) = (ls ++ (combine bs).1, (combine bs).2)
    ∧ combine ((ls, true) :: bs) = (ls, true) :=
  ⟨rfl, rfl, by simp [combine], by simp [combine]⟩

/-- C5: on a clean tree (every directory listable), the traversal raises
nothing and the number of printed lines equals the number of surviving
entries reachable under the root. -/
theorem c5_line_count (nm : String) (cs : List FS) (pr : String) (ih ig : Bool)
    (h : FS.clean (.dir nm cs) = true) :
    (print_tree (.dir nm cs) pr ih ig).2 = false
    ∧ (print_tree (.dir nm cs) pr ih ig).1.length = countEntries ih ig (.dir nm cs) := by
  unfold print_tree
  exact printTreeF_count _ _ pr ih ig (le_refl _) h rfl

/-- Witness for C5 on a concrete tree with filtering, nesting, files and
directories. -/
theorem c5_line_count_witness :
    FS.clean (.dir "r" [FS.file "b.txt", FS.file ".hidden", FS.dir "sub" [FS.file "x"],
      FS.dir ".git" [], FS.file "a.txt"]) = true
    ∧ (print_tree (.dir "r" [FS.file "b.txt", FS.file ".hidden", FS.dir "sub" [FS.file "x"],
        FS.dir ".git" [], FS.file "a.txt"]) "" true true).1.length
      = countEntries true true (.dir "r" [FS.file "b.txt", FS.file ".hidden",
          FS.dir "sub" [FS.file "x"], FS.dir ".git" [], FS.file "a.txt"]) :=
  ⟨by decide,
   (c5_line_count "r" [FS.file "b.txt", FS.file ".hidden", FS.dir "sub" [FS.file "x"],
      FS.dir ".git" [], FS.file "a.txt"] "" true true (by decide)).2⟩

/-- C6: in every listing of an error-free directory, the entry at position i
of the combined files-then-directories order is printed with the corner
connector exactly when it is the last position, and with the tee connector
otherwise; the corner glyph is the last-connector and the tee glyph the
branch-connector. -/
theorem c6_connector_glyphs (nm : String) (cs : List FS) (pr : String) (ih ig : Bool)
    (hfree : FS.errFree (.dir nm cs) = true) (i : Nat)
    (hi : i < (orderEntries cs ih ig).length) :
    entryLine pr (i == (orderEntries cs ih ig).length - 1) ((orderEntries cs ih ig).get ⟨i, hi⟩)
        ∈ (print_tree (.dir nm cs) pr ih ig).1
    ∧ connector true = "└── " ∧ connector false = "├── " := by
  refine ⟨?_, rfl, rfl⟩
  rw [print_tree_dir_eq]
  have hblocks : ∀ b ∈ (orderEntries cs ih ig).enum.map (fun ie =>
      if ie.2.isDir then
        (entryLine pr (ie.1 == (orderEntries cs ih ig).length - 1) ie.2 ::
           (print_tree ie.2
             (pr ++ extension (ie.1 == (orderEntries cs ih ig).length - 1)) ih ig).1,
         (print_tree ie.2
           (pr ++ extension (ie.1 == (orderEntries cs ih ig).length - 1)) ih ig).2)
      else
        ([entryLine pr (ie.1 == (orderEntries cs ih ig).length - 1) ie.2], false)),
      b.2 = false := by
    intro b hb
    rcases List.mem_map.mp hb with ⟨ie, hie, hfb⟩
    have hmem : ie.2 ∈ cs := mem_orderEntries (List.snd_mem_of_mem_enum hie)
    have hfree2 : ie.2.errFree = true :=
      FS.errFreeList_mem (by simpa [FS.errFree] using hfree) hmem
    by_cases hd : ie.2.isDir = true
    · rw [← hfb]
      simp only [hd, if_true]
      unfold print_tree
      exact printTreeF_snd_false _ _ _ ih ig (le_refl _) hfree2 hd
    · rw [← hfb]
      simp [hd]
  rw [combine_eq_flatten _ hblocks]
  have hie : (i, (orderEntries cs ih ig).get ⟨i, hi⟩) ∈ (orderEntries cs ih ig).enum := by
    rw [List.mem_enum_iff_getElem?]
    simp [List.getElem?_eq_getElem hi]
  apply List.mem_flatten.mpr
  refine ⟨_, List.mem_map_of_mem Prod.fst (List.mem_map_of_mem _ hie), ?_⟩
  by_cases hd : ((orderEntries cs ih ig).get ⟨i, hi⟩).isDir = true
  · simp only [hd, if_true]
    exact List.mem_cons_self _ _
  · simp only [hd, if_false]
    simp

/-- Witness for C6: a two-entry listing, instantiated at the last position. -/
theorem c6_connector_glyphs_witness :
    FS.errFree (.dir "r" [FS.file "a", FS.file "b"]) = true
    ∧ 1 < (orderEntries [FS.file "a", FS.file "b"] true true).length
    ∧ entryLine "" ((1 : Nat) == (orderEntries [FS.file "a", FS.file "b"] true true).length - 1)
        ((orderEntries [FS.file "a", FS.file "b"] true true).get ⟨1, by decide⟩)
        ∈ (print_tree (.dir "r" [FS.file "a", FS.file "b"]) "" true true).1 :=
  ⟨by decide, by decide,
   (c6_connector_glyphs "r" [FS.file "a", FS.file "b"] "" true true (by decide) 1 (by decide)).1⟩

/-- C7: an entry line ends in the separator slash exactly when the entry is
a directory, provided the entry name contains no slash (filesystem entry
names never do). -/
theorem c7_trailing_separator (pr : String) (isLast : Bool) (e : FS)
    (h : '/' ∉ e.name.data) :
    ((entryLine pr isLast e).data.getLast? = some '/') ↔ e.isDir = true := by
  unfold entryLine nameDisplay dirSuffix
  cases hdir : e.isDir with
  | true =>
    simp only [if_true]
    simp [String.data_append, List.getLast?_append]
  | false =>
    simp only [Bool.false_eq_true, if_false, iff_false]
    by_cases hsp : hasSpecial e.name = true
    · simp only [hsp, if_true]
      unfold filename_with_codepoints
      have hshape : (pr ++ connector isLast ++
          (pyRepr e.name ++ " ["
            ++ String.intercalate " " (List.map char_to_codepoint e.name.data) ++ "]" ++ "")).data
          = ((pr ++ connector isLast ++ (pyRepr e.name ++ " ["
              ++ String.intercalate " " (List.map char_to_codepoint e.name.data))).data)
            ++ [']'] := by
        simp [String.data_append]
      rw [hshape, List.getLast?_concat]
      simp
    · rw [Bool.not_eq_true] at hsp
      simp only [hsp, Bool.false_eq_true, if_false]
      cases hlast : e.name.data.getLast? with
      | none =>
        rw [List.getLast?_eq_none_iff] at hlast
        cases isLast with
        | true =>
          simp [String.data_append, List.getLast?_append, hlast, connector]
        | false =>
          simp [String.data_append, List.getLast?_append, hlast, connector]
      | some a =>
        have ha : a ∈ e.name.data := by
          rcases List.getLast?_eq_some_iff.mp hlast with ⟨ys, hys⟩
          rw [hys]
          exact List.mem_append_right ys (List.mem_singleton.mpr rfl)
        have hne : a ≠ '/' := fun hh => h (hh ▸ ha)
        simp [String.data_append, List.getLast?_append, hlast, hne]

/-- Witness for C7: a directory line ends with the separator, a file line
does not. -/
theorem c7_trailing_separator_witness :
    ('/' ∉ ("sub" : String).data
      ∧ ((entryLine "" true (FS.dir "sub" [])).data.getLast? = some '/') = (True : Prop))
    ∧ ('/' ∉ ("a.txt" : String).data
      ∧ ((entryLine "" false (FS.file "a.txt")).data.getLast? = some '/') = (False : Prop)) := by
  constructor
  · exact ⟨by decide,
      eq_true ((c7_trailing_separator "" true (FS.dir "sub" []) (by decide)).mpr rfl)⟩
  · exact ⟨by decide,
      eq_false (fun hcontra =>
        absurd ((c7_trailing_separator "" false (FS.file "a.txt") (by decide)).mp hcontra)
          (by decide))⟩

/-- C8: a directory's traversal prints, for each ordered entry, the entry
line followed immediately by the lines of the recursive call on that entry
when it is a directory, where the recursive call's prefix is the parent
prefix extended by four spaces when the entry is last and by the
vertical-bar continuation glyph otherwise; both extensions are exactly four
characters, one indentation level. -/
theorem c8_recursion_prefix (nm : String) (cs : List FS) (pr : String) (ih ig : Bool) :
    print_tree (.dir nm cs) pr ih ig
      = combine ((orderEntries cs ih ig).enum.map (fun ie =>
          if ie.2.isDir then
            (entryLine pr (ie.1 == (orderEntries cs ih ig).length - 1) ie.2 ::
               (print_tree ie.2
                 (pr ++ extension (ie.1 == (orderEntries cs ih ig).length - 1)) ih ig).1,
             (print_tree ie.2
               (pr ++ extension (ie.1 == (orderEntries cs ih ig).length - 1)) ih ig).2)
          else ([entryLine pr (ie.1 == (orderEntries cs ih ig).length - 1) ie.2], false)))
    ∧ extension true = "    " ∧ extension false = "│   "
    ∧ (extension true).length = 4 ∧ (extension false).length = 4 :=
  ⟨print_tree_dir_eq nm cs pr ih ig, rfl, rfl, by decide, by decide⟩

/-- C9: both branches of char_to_codepoint return the same string, so the
test cp < 0x100 has no effect, and for every character, including codepoints
at or above 0x100 and 0x10000, the result is U+ followed by the uppercase
hexadecimal of the codepoint zero-padded to at least four digits. -/
theorem c9_branches_equal (c : Char) :
    (if c.toNat < 0x100 then "U+" ++ pyFormat04X c.toNat else "U+" ++ pyFormat04X c.toNat)
        = "U+" ++ pyFormat04X c.toNat
    ∧ char_to_codepoint c = "U+" ++ pyFormat04X c.toNat
    ∧ tokenSpec c.toNat (char_to_codepoint c) :=
  ⟨ite_self _, char_to_codepoint_eq c, tokenSpec_char_to_codepoint c⟩

/-! ## Redundancy of the git filter under hidden filtering -/

theorem git_filter_redundant (l : List FS) :
    (l.filter (fun e => ! startsWithDot e.name)).filter (fun e => e.name != ".git")
      = l.filter (fun e => ! startsWithDot e.name) := by
  apply List.filter_eq_self.mpr
  intro e he
  have h1 := (List.mem_filter.mp he).2
  rw [bne_iff_ne]
  intro hname
  rw [hname] at h1
  exact absurd h1 (by decide)

theorem filterEntries_git_redundant (cs : List FS) :
    filterEntries cs true true = filterEntries cs true false := by
  unfold filterEntries
  simp only [if_true, if_false]
  exact git_filter_redundant (sortEntries cs)

theorem orderEntries_git_redundant (cs : List FS) :
    orderEntries cs true true = orderEntries cs true false := by
  unfold orderEntries
  rw [filterEntries_git_redundant]

theorem printTreeF_git_redundant :
    ∀ fuel : Nat, ∀ fs : FS, ∀ pr : String,
      printTreeF fuel fs pr true true = printTreeF fuel fs pr true false := by
  intro fuel
  induction fuel with
  | zero => intro fs pr; rfl
  | succ fuel ihf =>
    intro fs pr
    cases fs with
    | file n => rfl
    | deniedDir n => rfl
    | errDir n => rfl
    | dir n cs =>
      simp only [printTreeF]
      rw [orderEntries_git_redundant]
      congr 1
      apply List.map_congr_left
      intro ie hie
      by_cases hd : ie.2.isDir = true
      · simp only [hd, if_true]
        rw [ihf ie.2]
      · simp [hd]

/-- C10: when hidden entries are filtered, the git filter is redundant:
filtering names that start with a dot already removes the entry named .git,
and the traversal output is identical whether ignore_git is on or off. -/
theorem c10_git_redundant_under_hidden (fs : FS) (pr : String) :
    print_tree fs pr true true = print_tree fs pr true false
    ∧ ∀ l : List FS,
        (l.filter (fun e => ! startsWithDot e.name)).filter (fun e => e.name != ".git")
          = l.filter (fun e => ! startsWithDot e.name) :=
  ⟨printTreeF_git_redundant _ fs pr, git_filter_redundant⟩
